import Mathlib

/-!
# Verification of the `ic-asset` incremental sync client

Shallow embedding of `src/client/src/main.rs` (the diff-and-chunked-upload
engine) and proofs of the specification's claims about it.

Conventions of the embedding:
* byte strings are `List Nat`; machine integers (`usize`, `u32`, `u64`,
  `u128`) are `Nat` — all arithmetic in `main.rs` stays far below the
  respective moduli (`len` fields are bounded by `CHUNK_SIZE = 2_000_000 <
  2^32`), so no wrap-around modelling is needed;
* the local filesystem walk is modelled as a list of `LocalEntry` records
  (key, content bytes, modification timestamp in milliseconds, content
  type), per the collaborator contract: the metadata length equals the
  actual content length;
* the `BTreeMap<String, Metadata>` of remote entries is modelled as an
  association list of `Metadata`; `existing.remove(&key)` becomes
  `removeKey`; theorems that need the map's key-uniqueness take a
  `Nodup` hypothesis on the names;
* the network is modelled by recording every `upload_blob` call as a
  `Chunk` (its arguments `id`, `blob`, `item`, `is_final`) and the commit
  decision as a `Bool`; `runWithUploads` adds a per-call success oracle to
  model `try_join_all` followed by the conditional `commit`.
-/

/-- `const CHUNK_SIZE: usize = 2_000_000;` from `main.rs`. -/
def CHUNK_SIZE : Nat := 2000000

/-- Modelled from the spec: the `storage::DataType` enum of the missing
`storage` module (`dataType ∈ {New, Append, Delete}`, §3/§6). -/
inductive DataType where
  | New
  | Append
  | Delete
deriving DecidableEq, Repr

/-- Modelled from the spec: `storage::Metadata` returned by `list()` —
`(name, size, timestamp)` (§6). -/
structure Metadata where
  name : String
  size : Nat
  timestamp : Nat
deriving DecidableEq, Repr

/-- Modelled from the spec: the `storage::Item` wire shape
`{key, dataType, len, timestamp, contentType}` (§6).  `len` is `u32` on
the wire; every value stored here is at most `CHUNK_SIZE < 2^32`. -/
structure Item where
  key : String
  dataType : DataType
  len : Nat
  timestamp : Nat
  contentType : String
deriving DecidableEq, Repr

/-- One recorded call of `upload_blob(service, id, blob, item, is_final)`
from `main.rs` (the chunk of the spec, flattening `storage::UploadData
{blob, item}` together with the sequence id and the `is_final` flag). -/
structure Chunk where
  id : Nat
  blob : List Nat
  item : List Item
  isFinal : Bool
deriving DecidableEq, Repr

/-- A scanned local file, as produced by the `WalkDir` loop head in
`main.rs`: remote key, content bytes (metadata length = `content.length`),
modification time in ms, guessed content type. -/
structure LocalEntry where
  key : String
  content : List Nat
  timestamp : Nat
  contentType : String
deriving DecidableEq, Repr

/-- The mutable state of the packing loop in `main` (`size`, `blob`,
`item`, `id`) plus the list of upload calls recorded so far (`futures`,
which in the source receives one `upload_blob` future per emitted
chunk). -/
structure St where
  size : Nat
  blob : List Nat
  item : List Item
  id : Nat
  chunks : List Chunk
deriving DecidableEq, Repr

/-- Initial state of `main`: `size = CHUNK_SIZE`, empty buffers, `id = 0`,
no uploads yet. -/
def initSt : St := ⟨CHUNK_SIZE, [], [], 0, []⟩

/-- `existing.remove(&key)` on the association-list model of the
`BTreeMap`: returns the removed entry (if any) and the remaining list. -/
def removeKey (k : String) : List Metadata → Option Metadata × List Metadata
  | [] => (none, [])
  | m :: ms =>
    if m.name = k then (some m, ms)
    else
      let r := removeKey k ms
      (r.1, m :: r.2)

/-- The `while size < len` loop of `main.rs` (lines 64–82): as long as the
file's remaining content is strictly longer than the remaining capacity,
read exactly `size` bytes, push an `Item` of that length, record the
(non-final) chunk upload, reset the buffers and capacity, switch the data
type to `Append`, and advance the sequence id.  Returns the state after
the loop, the data type left in `data_type`, and the unread rest of the
file. -/
def packLoop (k c : String) (t : Nat) (content : List Nat) (dt : DataType)
    (st : St) : St × DataType × List Nat :=
  if h : st.size < content.length then
    let buf := content.take st.size
    let it : Item := ⟨k, dt, st.size, t, c⟩
    let chunk : Chunk := ⟨st.id, st.blob ++ buf, st.item ++ [it], false⟩
    packLoop k c t (content.drop st.size) DataType.Append
      ⟨CHUNK_SIZE, [], [], st.id + 1, st.chunks ++ [chunk]⟩
  else
    (st, dt, content)
termination_by 2 * content.length + (1 - st.size)
decreasing_by
  simp only [List.length_drop, CHUNK_SIZE]
  omega

/-- The item descriptors pushed for one file by `main.rs` lines 62–91,
given the file's (remaining) length, the remaining chunk capacity and the
current data type: one `Item` per loop iteration plus the tail `Item`
pushed after the loop. -/
def fileItems (k c : String) (t : Nat) (len size : Nat) (dt : DataType) :
    List Item :=
  if size < len then
    ⟨k, dt, size, t, c⟩ :: fileItems k c t (len - size) CHUNK_SIZE DataType.Append
  else
    [⟨k, dt, len, t, c⟩]
termination_by 2 * len + (1 - size)
decreasing_by
  simp only [CHUNK_SIZE]
  omega

/-- Lines 61–91 of `main.rs` for one file needing upload: run the packing
loop, then `size -= len`, `f.read_to_end(&mut blob)` (append the unread
rest) and push the tail `Item` with the remaining length and the current
data type. -/
def processFile (e : LocalEntry) (st : St) : St :=
  let r := packLoop e.key e.contentType e.timestamp e.content DataType.New st
  { r.1 with
    size := r.1.size - r.2.2.length
    blob := r.1.blob ++ r.2.2
    item := r.1.item ++ [⟨e.key, r.2.1, r.2.2.length, e.timestamp, e.contentType⟩] }

/-- One iteration of the `for p in WalkDir...` loop (lines 40–92): look
the key up in (and remove it from) the remote map; skip the file when the
remote timestamp and size both match, otherwise pack it. -/
def syncStep (acc : St × List Metadata) (e : LocalEntry) : St × List Metadata :=
  let r := removeKey e.key acc.2
  match r.1 with
  | some m =>
    if m.timestamp = e.timestamp ∧ m.size = e.content.length then (acc.1, r.2)
    else (processFile e acc.1, r.2)
  | none => (processFile e acc.1, r.2)

/-- The diff alone (the same per-file decision as `syncStep`, without the
packing): returns the list of local entries needing upload and the
residual remote entries slated for deletion. -/
def diff : List LocalEntry → List Metadata → List LocalEntry × List Metadata
  | [], ex => ([], ex)
  | e :: ls, ex =>
    let r := removeKey e.key ex
    match r.1 with
    | some m =>
      if m.timestamp = e.timestamp ∧ m.size = e.content.length then diff ls r.2
      else
        let d := diff ls r.2
        (e :: d.1, d.2)
    | none =>
      let d := diff ls r.2
      (e :: d.1, d.2)

/-- Outcome of one run assuming every upload succeeds: the recorded
upload calls (in submission order) and whether `commit` was called. -/
structure RunResult where
  chunks : List Chunk
  commit : Bool
deriving DecidableEq, Repr

/-- `main` (lines 34–108): fold the walk over `syncStep`, push one
`Delete` item per remaining remote entry, record the unconditional final
upload (`futures.push(upload_blob(..., id, blob, item, true))`), and call
`commit` iff `id > 0`. -/
def runSync (locals : List LocalEntry) (remote : List Metadata) : RunResult :=
  let r := locals.foldl syncStep (initSt, remote)
  let item2 := r.1.item ++ r.2.map (fun m => ⟨m.name, DataType.Delete, 0, 0, ""⟩)
  { chunks := r.1.chunks ++ [⟨r.1.id, r.1.blob, item2, true⟩]
    commit := decide (0 < r.1.id) }

/-- Observable effects of a run where upload number `i` succeeds iff
`uploadOk i`: `failed` models `try_join_all(futures).await?` propagating
an error, `committed` whether `service.commit()` was reached (lines
104–107). -/
structure IOOutcome where
  failed : Bool
  committed : Bool
deriving DecidableEq, Repr

/-- `main`'s tail with a per-chunk success oracle: if any recorded upload
fails, the run fails before the commit decision; otherwise commit is
called iff `id > 0`. -/
def runWithUploads (locals : List LocalEntry) (remote : List Metadata)
    (uploadOk : Nat → Bool) : IOOutcome :=
  let r := runSync locals remote
  if r.chunks.all (fun c => uploadOk c.id) then ⟨false, r.commit⟩
  else ⟨true, false⟩

/-- All items of a state, in emission order: the items of the already
recorded chunks followed by the pending `item` buffer. -/
def St.itemStream (st : St) : List Item :=
  (st.chunks.map Chunk.item).flatten ++ st.item

/-- Sum of the `len` fields of a list of items. -/
def itemLenSum (l : List Item) : Nat := (l.map Item.len).sum

/-- The four state invariants maintained by the packing pass: the pending
blob and the remaining capacity sum to `CHUNK_SIZE`, the pending blob
length equals the pending items' total `len`, the recorded chunk ids are
`0, 1, …, id − 1` in order, and every recorded chunk is non-final, of
blob length exactly `CHUNK_SIZE`, with blob length equal to its items'
total `len`. -/
def StInv (st : St) : Prop :=
  st.blob.length + st.size = CHUNK_SIZE ∧
  st.blob.length = itemLenSum st.item ∧
  st.chunks.map Chunk.id = List.range st.id ∧
  ∀ ch ∈ st.chunks,
    ch.isFinal = false ∧ ch.blob.length = CHUNK_SIZE ∧
    ch.blob.length = itemLenSum ch.item

/-- Provenance of the item stream: before the deletion pass, every emitted
item belongs to an uploaded file — it is not a `Delete` item and its key is
one of the allowed keys. -/
def streamOK (ks : List String) (st : St) : Prop :=
  ∀ i ∈ st.itemStream, i.dataType ≠ DataType.Delete ∧ i.key ∈ ks

/-- The Chunk Assembler on the upload set alone: fold `processFile` over
the entries needing upload, starting from the initial state. -/
def packAll (us : List LocalEntry) : St :=
  us.foldl (fun s e => processFile e s) initSt

/-- Spec-side definition (4.1, claim C3): a local entry is unchanged iff a
remote entry with the same key exists whose timestamp and size both
match. -/
def matchesRemote (R : List Metadata) (e : LocalEntry) : Prop :=
  ∃ m ∈ R, m.name = e.key ∧ m.timestamp = e.timestamp ∧
    m.size = e.content.length

instance decMatchesRemote (R : List Metadata) (e : LocalEntry) :
    Decidable (matchesRemote R e) :=
  inferInstanceAs (Decidable (∃ m ∈ R, m.name = e.key ∧
    m.timestamp = e.timestamp ∧ m.size = e.content.length))

/-- Spec-side definition (4.1/§8, claim C3): the subset of local entries
requiring upload — those with no exactly-matching remote entry. -/
def uploadSet (L : List LocalEntry) (R : List Metadata) : List LocalEntry :=
  L.filter (fun e => !decide (matchesRemote R e))

/-- Spec-side definition (4.1/§8, claim C3): the subset of remote entries
slated for deletion — those whose key is matched by no local entry. -/
def deleteSet (L : List LocalEntry) (R : List Metadata) : List Metadata :=
  R.filter (fun m => !decide (∃ e ∈ L, e.key = m.name))

/-- Concrete input (spec §8 scenario): a 500-byte new local file. -/
def a500 : LocalEntry := ⟨"/a.txt", List.replicate 500 0, 1000, "text/plain"⟩

/-- Concrete input (spec §8 scenario): a local file of exactly
`CHUNK_SIZE` bytes. -/
def a2M : LocalEntry :=
  ⟨"/a.bin", List.replicate 2000000 0, 1000, "application/octet-stream"⟩

/-- Concrete input: a local file one byte over `CHUNK_SIZE`, which makes
the packing loop run exactly once. -/
def bigE : LocalEntry :=
  ⟨"/b.bin", List.replicate 2000001 0, 1000, "application/octet-stream"⟩

/-- Concrete input (spec §8 scenario): a remote-only manifest entry. -/
def bMeta : Metadata := ⟨"/b.txt", 10, 5⟩

/-! ## Unfolding lemmas for the packing loop -/

lemma packLoop_of_lt (k c : String) (t : Nat) (content : List Nat)
    (dt : DataType) (st : St) (h : st.size < content.length) :
    packLoop k c t content dt st =
      packLoop k c t (content.drop st.size) DataType.Append
        ⟨CHUNK_SIZE, [], [], st.id + 1,
          st.chunks ++ [⟨st.id, st.blob ++ content.take st.size,
            st.item ++ [⟨k, dt, st.size, t, c⟩], false⟩]⟩ := by
  rw [packLoop]
  simp [h]

lemma packLoop_of_le (k c : String) (t : Nat) (content : List Nat)
    (dt : DataType) (st : St) (h : ¬ st.size < content.length) :
    packLoop k c t content dt st = (st, dt, content) := by
  rw [packLoop]
  simp [h]

lemma fileItems_of_lt (k c : String) (t : Nat) (len size : Nat)
    (dt : DataType) (h : size < len) :
    fileItems k c t len size dt =
      ⟨k, dt, size, t, c⟩ :: fileItems k c t (len - size) CHUNK_SIZE DataType.Append := by
  rw [fileItems]
  simp [h]

lemma fileItems_of_le (k c : String) (t : Nat) (len size : Nat)
    (dt : DataType) (h : ¬ size < len) :
    fileItems k c t len size dt = [⟨k, dt, len, t, c⟩] := by
  rw [fileItems]
  simp [h]

/-! ## Facts about the per-file item descriptors -/

lemma fileItems_mem (k c : String) (t : Nat) :
    ∀ len size dt, ∀ i ∈ fileItems k c t len size dt,
      i.key = k ∧ i.contentType = c ∧ i.timestamp = t ∧
      (i.dataType = dt ∨ i.dataType = DataType.Append) := by
  intro len size dt
  induction len, size, dt using fileItems.induct k c t with
  | case1 len size dt h ih =>
    intro i hi
    rw [fileItems_of_lt _ _ _ _ _ _ h, List.mem_cons] at hi
    rcases hi with hi | hi
    · simp [hi]
    · rcases ih i hi with ⟨h1, h2, h3, h4⟩
      exact ⟨h1, h2, h3, Or.inr (h4.elim id id)⟩
  | case2 len size dt h =>
    intro i hi
    rw [fileItems_of_le _ _ _ _ _ _ h] at hi
    simp only [List.mem_singleton] at hi
    simp [hi]

lemma fileItems_lenSum (k c : String) (t : Nat) :
    ∀ len size dt, itemLenSum (fileItems k c t len size dt) = len := by
  intro len size dt
  induction len, size, dt using fileItems.induct k c t with
  | case1 len size dt h ih =>
    rw [fileItems_of_lt _ _ _ _ _ _ h]
    simp only [itemLenSum, List.map_cons, List.sum_cons] at ih ⊢
    omega
  | case2 len size dt h =>
    rw [fileItems_of_le _ _ _ _ _ _ h]
    simp [itemLenSum]

lemma fileItems_head (k c : String) (t : Nat) (len size : Nat) (dt : DataType) :
    (fileItems k c t len size dt).head?.map Item.dataType = some dt := by
  by_cases h : size < len
  · rw [fileItems_of_lt _ _ _ _ _ _ h]; rfl
  · rw [fileItems_of_le _ _ _ _ _ _ h]; rfl

lemma fileItems_tail_append (k c : String) (t : Nat) (len size : Nat)
    (dt : DataType) :
    ∀ i ∈ (fileItems k c t len size dt).tail, i.dataType = DataType.Append := by
  intro i hi
  by_cases h : size < len
  · rw [fileItems_of_lt _ _ _ _ _ _ h] at hi
    simp only [List.tail_cons] at hi
    rcases fileItems_mem k c t _ _ _ i hi with ⟨-, -, -, h4⟩
    exact h4.elim id id
  · rw [fileItems_of_le _ _ _ _ _ _ h] at hi
    simp at hi

lemma fileItems_countP_new (k c : String) (t : Nat) (len size : Nat) :
    (fileItems k c t len size DataType.New).countP
      (fun i => decide (i.dataType = DataType.New)) = 1 := by
  by_cases h : size < len
  · rw [fileItems_of_lt _ _ _ _ _ _ h]
    rw [List.countP_cons]
    have hz : (fileItems k c t (len - size) CHUNK_SIZE DataType.Append).countP
        (fun i => decide (i.dataType = DataType.New)) = 0 := by
      rw [List.countP_eq_zero]
      intro i hi
      rcases fileItems_mem k c t _ _ _ i hi with ⟨-, -, -, h4⟩
      have : i.dataType = DataType.Append := h4.elim id id
      simp [this]
    simp [hz]
  · rw [fileItems_of_le _ _ _ _ _ _ h]
    simp [List.countP_cons]

/-! ## The packing loop: item stream and state invariants -/

lemma packLoop_tail_stream (k c : String) (t : Nat) :
    ∀ content dt st st' dt' rest,
      packLoop k c t content dt st = (st', dt', rest) →
      St.itemStream { st' with
          size := st'.size - rest.length
          blob := st'.blob ++ rest
          item := st'.item ++ [⟨k, dt', rest.length, t, c⟩] }
        = st.itemStream ++ fileItems k c t content.length st.size dt := by
  intro content dt st
  induction content, dt, st using packLoop.induct k c t with
  | case1 content dt st h buf it chunk ih =>
    intro st' dt' rest heq
    rw [packLoop_of_lt _ _ _ _ _ _ h] at heq
    rw [ih st' dt' rest heq, fileItems_of_lt _ _ _ _ _ _ h]
    simp [St.itemStream, List.length_drop]
  | case2 content dt st h =>
    intro st' dt' rest heq
    rw [packLoop_of_le _ _ _ _ _ _ h] at heq
    obtain ⟨rfl, rfl, rfl⟩ : st = st' ∧ dt = dt' ∧ content = rest := by
      simpa using congrArg (fun p => (p.1, p.2.1, p.2.2)) heq
    rw [fileItems_of_le _ _ _ _ _ _ h]
    simp [St.itemStream]

lemma initSt_StInv : StInv initSt := by
  refine ⟨by simp [initSt], by simp [initSt, itemLenSum], by simp [initSt], ?_⟩
  intro ch hch
  simp [initSt] at hch

lemma packLoop_StInv (k c : String) (t : Nat) :
    ∀ content dt st st' dt' rest,
      packLoop k c t content dt st = (st', dt', rest) →
      StInv st →
      StInv st' ∧ rest.length ≤ st'.size := by
  intro content dt st
  induction content, dt, st using packLoop.induct k c t with
  | case1 content dt st h buf it chunk ih =>
    intro st' dt' rest heq hinv
    rw [packLoop_of_lt _ _ _ _ _ _ h] at heq
    obtain ⟨h1, h2, h3, h4⟩ := hinv
    refine ih st' dt' rest heq ⟨by simp [CHUNK_SIZE], by simp [itemLenSum], ?_, ?_⟩
    · simp only [List.map_append, List.map_cons, List.map_nil, h3]
      simp [List.range_succ]
    · intro ch hch
      rw [List.mem_append, List.mem_singleton] at hch
      rcases hch with hch | rfl
      · exact h4 ch hch
      · have hbuf : buf.length = st.size := by
          simp only [buf, List.length_take]
          omega
        refine ⟨rfl, ?_, ?_⟩
        · simp only [List.length_append, hbuf]
          omega
        · simp only [List.length_append, hbuf, itemLenSum, List.map_append,
            List.map_cons, List.map_nil, List.sum_append, List.sum_cons,
            List.sum_nil]
          simp only [itemLenSum] at h2
          omega
  | case2 content dt st h =>
    intro st' dt' rest heq hinv
    rw [packLoop_of_le _ _ _ _ _ _ h] at heq
    obtain ⟨rfl, rfl, rfl⟩ : st = st' ∧ dt = dt' ∧ content = rest := by
      simpa using congrArg (fun p => (p.1, p.2.1, p.2.2)) heq
    exact ⟨hinv, by omega⟩

lemma processFile_StInv (e : LocalEntry) (st : St) (hinv : StInv st) :
    StInv (processFile e st) := by
  unfold processFile
  obtain ⟨⟨h1, h2, h3, h4⟩, hrest⟩ :=
    packLoop_StInv e.key e.contentType e.timestamp e.content DataType.New st
      (packLoop e.key e.contentType e.timestamp e.content DataType.New st).1
      (packLoop e.key e.contentType e.timestamp e.content DataType.New st).2.1
      (packLoop e.key e.contentType e.timestamp e.content DataType.New st).2.2
      rfl hinv
  refine ⟨?_, ?_, h3, h4⟩
  · simp only [List.length_append]
    omega
  · simp only [List.length_append, itemLenSum, List.map_append, List.map_cons,
      List.map_nil, List.sum_append, List.sum_cons, List.sum_nil]
    simp only [itemLenSum] at h2
    omega

lemma processFile_itemStream (e : LocalEntry) (st : St) :
    (processFile e st).itemStream =
      st.itemStream ++
        fileItems e.key e.contentType e.timestamp e.content.length st.size
          DataType.New :=
  packLoop_tail_stream e.key e.contentType e.timestamp e.content DataType.New st
    _ _ _ rfl

lemma initSt_streamOK (ks : List String) : streamOK ks initSt := by
  intro i hi
  simp [initSt, St.itemStream] at hi

lemma processFile_streamOK (ks : List String) (e : LocalEntry) (st : St)
    (hok : streamOK ks st) (hk : e.key ∈ ks) :
    streamOK ks (processFile e st) := by
  intro i hi
  rw [processFile_itemStream, List.mem_append] at hi
  rcases hi with hi | hi
  · exact hok i hi
  · rcases fileItems_mem _ _ _ _ _ _ i hi with ⟨h1, -, -, h4⟩
    refine ⟨?_, h1 ▸ hk⟩
    rcases h4 with h4 | h4 <;> simp [h4]

lemma syncStep_fst (st : St) (ex : List Metadata) (e : LocalEntry) :
    (syncStep (st, ex) e).1 = st ∨ (syncStep (st, ex) e).1 = processFile e st := by
  unfold syncStep
  cases hm : (removeKey e.key ex).1 with
  | none => simp [hm]
  | some m =>
    by_cases hc : m.timestamp = e.timestamp ∧ m.size = e.content.length
    · simp [hm, hc]
    · simp [hm, hc]

lemma foldl_syncStep_inv (ks : List String) :
    ∀ (L : List LocalEntry) (st : St) (ex : List Metadata),
      StInv st → streamOK ks st → (∀ e ∈ L, e.key ∈ ks) →
      StInv (L.foldl syncStep (st, ex)).1 ∧
        streamOK ks (L.foldl syncStep (st, ex)).1 := by
  intro L
  induction L with
  | nil =>
    intro st ex h1 h2 _
    exact ⟨h1, h2⟩
  | cons e ls ih =>
    intro st ex h1 h2 h3
    rw [List.foldl_cons]
    have hek : e.key ∈ ks := h3 e (List.mem_cons_self e ls)
    have h3' : ∀ x ∈ ls, x.key ∈ ks := fun x hx => h3 x (List.mem_cons_of_mem e hx)
    have := ih (syncStep (st, ex) e).1 (syncStep (st, ex) e).2 ?_ ?_ h3'
    · exact this
    · rcases syncStep_fst st ex e with hcase | hcase
      · rw [hcase]; exact h1
      · rw [hcase]; exact processFile_StInv e st h1
    · rcases syncStep_fst st ex e with hcase | hcase
      · rw [hcase]; exact h2
      · rw [hcase]; exact processFile_streamOK ks e st h2 hek

lemma foldl_syncStep_eq_diff :
    ∀ (L : List LocalEntry) (st : St) (ex : List Metadata),
      L.foldl syncStep (st, ex) =
        ((diff L ex).1.foldl (fun s e => processFile e s) st, (diff L ex).2) := by
  intro L
  induction L with
  | nil =>
    intro st ex
    simp [diff]
  | cons e ls ih =>
    intro st ex
    rw [List.foldl_cons]
    cases hm : (removeKey e.key ex).1 with
    | none =>
      have hstep : syncStep (st, ex) e = (processFile e st, (removeKey e.key ex).2) := by
        simp only [syncStep, hm]
      have hdiff : diff (e :: ls) ex =
          (e :: (diff ls (removeKey e.key ex).2).1, (diff ls (removeKey e.key ex).2).2) := by
        simp only [diff, hm]
      rw [hstep, ih, hdiff, List.foldl_cons]
    | some m =>
      by_cases hc : m.timestamp = e.timestamp ∧ m.size = e.content.length
      · have hstep : syncStep (st, ex) e = (st, (removeKey e.key ex).2) := by
          simp only [syncStep, hm, if_pos hc]
        have hdiff : diff (e :: ls) ex = diff ls (removeKey e.key ex).2 := by
          simp only [diff, hm, if_pos hc]
        rw [hstep, ih, hdiff]
      · have hstep : syncStep (st, ex) e = (processFile e st, (removeKey e.key ex).2) := by
          simp only [syncStep, hm, if_neg hc]
        have hdiff : diff (e :: ls) ex =
            (e :: (diff ls (removeKey e.key ex).2).1, (diff ls (removeKey e.key ex).2).2) := by
          simp only [diff, hm, if_neg hc]
        rw [hstep, ih, hdiff, List.foldl_cons]

lemma runSync_eq (L : List LocalEntry) (R : List Metadata) :
    runSync L R =
      { chunks := (packAll (diff L R).1).chunks ++
          [⟨(packAll (diff L R).1).id, (packAll (diff L R).1).blob,
            (packAll (diff L R).1).item ++
              (diff L R).2.map (fun m => ⟨m.name, DataType.Delete, 0, 0, ""⟩),
            true⟩]
        commit := decide (0 < (packAll (diff L R).1).id) } := by
  unfold runSync packAll
  rw [foldl_syncStep_eq_diff]

/-! ## The diff: `removeKey` characterization and correctness -/

lemma removeKey_fst (k : String) :
    ∀ l : List Metadata,
      (removeKey k l).1 = l.find? (fun m => decide (m.name = k)) := by
  intro l
  induction l with
  | nil => rfl
  | cons m ms ih =>
    by_cases h : m.name = k
    · rw [List.find?_cons_of_pos _ (by simp [h])]
      simp [removeKey, h]
    · rw [List.find?_cons_of_neg _ (by simp [h])]
      simp [removeKey, h, ih]

lemma removeKey_snd (k : String) :
    ∀ l : List Metadata,
      (removeKey k l).2 = l.eraseP (fun m => decide (m.name = k)) := by
  intro l
  induction l with
  | nil => rfl
  | cons m ms ih =>
    by_cases h : m.name = k
    · rw [List.eraseP_cons_of_pos (by simp [h])]
      simp [removeKey, h]
    · rw [List.eraseP_cons_of_neg (by simp [h])]
      simp [removeKey, h, ih]

lemma eraseP_name_eq_filter (k : String) :
    ∀ l : List Metadata, (l.map Metadata.name).Nodup →
      l.eraseP (fun m => decide (m.name = k)) =
        l.filter (fun m => !decide (m.name = k)) := by
  intro l
  induction l with
  | nil => intro _; rfl
  | cons m ms ih =>
    intro hnd
    rw [List.map_cons, List.nodup_cons] at hnd
    by_cases h : m.name = k
    · rw [List.eraseP_cons_of_pos (by simp [h]), List.filter_cons,
        if_neg (by simp [h])]
      symm
      rw [List.filter_eq_self]
      intro x hx
      have hxk : x.name ≠ k := by
        intro hk
        exact hnd.1 (h ▸ hk ▸ List.mem_map_of_mem Metadata.name hx)
      simp [hxk]
    · rw [List.eraseP_cons_of_neg (by simp [h]), List.filter_cons,
        if_pos (by simp [h]), ih hnd.2]

lemma nodup_names_filter (p : Metadata → Bool) (l : List Metadata)
    (h : (l.map Metadata.name).Nodup) :
    ((l.filter p).map Metadata.name).Nodup :=
  ((l.filter_sublist).map Metadata.name).nodup h

lemma diff_spec :
    ∀ (L : List LocalEntry) (R : List Metadata),
      (L.map LocalEntry.key).Nodup → (R.map Metadata.name).Nodup →
      diff L R = (uploadSet L R, deleteSet L R) := by
  intro L
  induction L with
  | nil =>
    intro R _ _
    simp [diff, uploadSet, deleteSet, List.filter_eq_self]
  | cons e ls ih =>
    intro R hl hr
    rw [List.map_cons, List.nodup_cons] at hl
    have hlk : ∀ e' ∈ ls, e'.key ≠ e.key := by
      intro e' he' hk
      exact hl.1 (hk ▸ List.mem_map_of_mem LocalEntry.key he')
    cases hm : (removeKey e.key R).1 with
    | none =>
      have hfind : R.find? (fun m => decide (m.name = e.key)) = none := by
        rw [← removeKey_fst]; exact hm
      have hnone : ∀ m ∈ R, m.name ≠ e.key := by
        intro m hmem
        have := List.find?_eq_none.mp hfind m hmem
        simpa using this
      have hex : (removeKey e.key R).2 = R := by
        rw [removeKey_snd]
        exact List.eraseP_of_forall_not (by intro a ha; simpa using hnone a ha)
      have hdiff : diff (e :: ls) R = (e :: (diff ls R).1, (diff ls R).2) := by
        simp only [diff, hm, hex]
      rw [hdiff, ih R hl.2 hr]
      have hne : ¬ matchesRemote R e := by
        rintro ⟨m, hmem, hnamem, -⟩
        exact hnone m hmem hnamem
      refine Prod.ext ?_ ?_
      · dsimp only
        unfold uploadSet
        rw [List.filter_cons, if_pos (by simp [hne])]
      · dsimp only
        unfold deleteSet
        apply List.filter_congr
        intro m hmem
        have hmne : m.name ≠ e.key := hnone m hmem
        congr 1
        rw [decide_eq_decide, List.exists_mem_cons_iff]
        constructor
        · intro hx; exact Or.inr hx
        · rintro (hx | hx)
          · exact absurd hx.symm hmne
          · exact hx
    | some m0 =>
      have hfind : R.find? (fun m => decide (m.name = e.key)) = some m0 := by
        rw [← removeKey_fst]; exact hm
      have hname : m0.name = e.key := by
        have := List.find?_some hfind
        simpa using this
      have hmem0 : m0 ∈ R := List.mem_of_find?_eq_some hfind
      have hex : (removeKey e.key R).2 =
          R.filter (fun m => !decide (m.name = e.key)) := by
        rw [removeKey_snd]
        exact eraseP_name_eq_filter e.key R hr
      have hr' : ((R.filter (fun m => !decide (m.name = e.key))).map
          Metadata.name).Nodup := nodup_names_filter _ R hr
      have hmatch : ∀ e' ∈ ls,
          matchesRemote (R.filter (fun m => !decide (m.name = e.key))) e' ↔
            matchesRemote R e' := by
        intro e' he'
        constructor
        · rintro ⟨m, hmmem, hn, hts, hsz⟩
          exact ⟨m, (List.mem_filter.mp hmmem).1, hn, hts, hsz⟩
        · rintro ⟨m, hmmem, hn, hts, hsz⟩
          refine ⟨m, List.mem_filter.mpr ⟨hmmem, ?_⟩, hn, hts, hsz⟩
          have hmn : m.name ≠ e.key := by
            rw [hn]; exact hlk e' he'
          simp [hmn]
      have hups : uploadSet ls (R.filter (fun m => !decide (m.name = e.key))) =
          uploadSet ls R := by
        unfold uploadSet
        apply List.filter_congr
        intro e' he'
        congr 1
        exact decide_eq_decide.mpr (hmatch e' he')
      by_cases hc : m0.timestamp = e.timestamp ∧ m0.size = e.content.length
      · have hdiff : diff (e :: ls) R =
            diff ls (R.filter (fun m => !decide (m.name = e.key))) := by
          simp only [diff, hm, hex, if_pos hc]
        rw [hdiff, ih _ hl.2 hr']
        have hyes : matchesRemote R e := ⟨m0, hmem0, hname, hc.1, hc.2⟩
        refine Prod.ext ?_ ?_
        · dsimp only
          rw [hups]
          unfold uploadSet
          rw [List.filter_cons, if_neg (by simp [hyes])]
        · dsimp only
          unfold deleteSet
          rw [List.filter_filter]
          apply List.filter_congr
          intro m hmem
          have hC : decide (∃ x ∈ e :: ls, x.key = m.name) =
              decide (e.key = m.name ∨ ∃ x ∈ ls, x.key = m.name) :=
            decide_eq_decide.mpr (List.exists_mem_cons_iff _ _ _)
          rw [hC]
          by_cases hA : ∃ x ∈ ls, x.key = m.name <;>
            by_cases hB : e.key = m.name <;>
            simp [hA, hB, eq_comm]
      · have hdiff : diff (e :: ls) R =
            (e :: (diff ls (R.filter (fun m => !decide (m.name = e.key)))).1,
              (diff ls (R.filter (fun m => !decide (m.name = e.key)))).2) := by
          simp only [diff, hm, hex, if_neg hc]
        rw [hdiff, ih _ hl.2 hr']
        have hno : ¬ matchesRemote R e := by
          rintro ⟨m', hm', hn', hts', hsz'⟩
          have : m' = m0 :=
            List.inj_on_of_nodup_map hr hm' hmem0 (hn'.trans hname.symm)
          rw [this] at hts' hsz'
          exact hc ⟨hts', hsz'⟩
        refine Prod.ext ?_ ?_
        · dsimp only
          rw [hups]
          unfold uploadSet
          rw [List.filter_cons, if_pos (by simp [hno])]
        · dsimp only
          unfold deleteSet
          rw [List.filter_filter]
          apply List.filter_congr
          intro m hmem
          have hC : decide (∃ x ∈ e :: ls, x.key = m.name) =
              decide (e.key = m.name ∨ ∃ x ∈ ls, x.key = m.name) :=
            decide_eq_decide.mpr (List.exists_mem_cons_iff _ _ _)
          rw [hC]
          by_cases hA : ∃ x ∈ ls, x.key = m.name <;>
            by_cases hB : e.key = m.name <;>
            simp [hA, hB, eq_comm]

/-! ## Concrete runs -/

lemma processFile_of_le (e : LocalEntry) (st : St)
    (h : ¬ st.size < e.content.length) :
    processFile e st =
      { st with
        size := st.size - e.content.length
        blob := st.blob ++ e.content
        item := st.item ++
          [⟨e.key, DataType.New, e.content.length, e.timestamp, e.contentType⟩] } := by
  unfold processFile
  rw [packLoop_of_le _ _ _ _ _ _ h]

lemma run_empty : runSync [] [] = ⟨[⟨0, [], [], true⟩], false⟩ := rfl

lemma run_delete_only : runSync [] [bMeta] =
    ⟨[⟨0, [], [⟨"/b.txt", DataType.Delete, 0, 0, ""⟩], true⟩], false⟩ := rfl

lemma run500 : runSync [a500] [] =
    ⟨[⟨0, List.replicate 500 0,
        [⟨"/a.txt", DataType.New, 500, 1000, "text/plain"⟩], true⟩], false⟩ := by
  have hle : ¬ initSt.size < a500.content.length := by
    simp only [a500, initSt, CHUNK_SIZE, List.length_replicate]
    decide
  have hstep : syncStep (initSt, ([] : List Metadata)) a500 =
      (processFile a500 initSt, []) := by
    simp only [syncStep, removeKey]
  simp only [runSync, List.foldl_cons, List.foldl_nil, hstep]
  rw [processFile_of_le _ _ hle]
  simp only [RunResult.mk.injEq, Chunk.mk.injEq, List.cons.injEq, initSt, a500,
    List.length_replicate, List.nil_append, List.append_nil, List.map_nil,
    and_true, true_and]
  decide

lemma run2M : runSync [a2M] [] =
    ⟨[⟨0, List.replicate 2000000 0,
        [⟨"/a.bin", DataType.New, 2000000, 1000, "application/octet-stream"⟩],
        true⟩], false⟩ := by
  have hle : ¬ initSt.size < a2M.content.length := by
    simp only [a2M, initSt, CHUNK_SIZE, List.length_replicate]
    decide
  have hstep : syncStep (initSt, ([] : List Metadata)) a2M =
      (processFile a2M initSt, []) := by
    simp only [syncStep, removeKey]
  simp only [runSync, List.foldl_cons, List.foldl_nil, hstep]
  rw [processFile_of_le _ _ hle]
  simp only [RunResult.mk.injEq, Chunk.mk.injEq, List.cons.injEq, initSt, a2M,
    List.length_replicate, List.nil_append, List.append_nil, List.map_nil,
    and_true, true_and]
  decide

lemma packBig : packLoop "/b.bin" "application/octet-stream" 1000
    (List.replicate 2000001 0) DataType.New initSt =
    (⟨CHUNK_SIZE, [], [], 1,
      [⟨0, List.replicate 2000000 0,
        [⟨"/b.bin", DataType.New, 2000000, 1000, "application/octet-stream"⟩],
        false⟩]⟩, DataType.Append, List.replicate 1 0) := by
  have h1 : initSt.size < (List.replicate 2000001 (0 : Nat)).length := by
    rw [List.length_replicate]
    decide
  have hdrop0 : List.drop initSt.size (List.replicate 2000001 (0 : Nat)) =
      List.replicate 1 0 := by
    rw [List.drop_replicate]
    norm_num [initSt, CHUNK_SIZE]
  have htake0 : List.take initSt.size (List.replicate 2000001 (0 : Nat)) =
      List.replicate 2000000 0 := by
    rw [List.take_replicate]
    norm_num [initSt, CHUNK_SIZE]
  rw [packLoop_of_lt _ _ _ _ _ _ h1, hdrop0, htake0,
    packLoop_of_le _ _ _ _ _ _ (by rw [List.length_replicate]; decide)]
  simp only [Prod.mk.injEq, St.mk.injEq, Chunk.mk.injEq, List.cons.injEq,
    initSt, CHUNK_SIZE, List.nil_append, List.append_nil, and_true, true_and]

lemma processFile_bigE : processFile bigE initSt =
    ⟨CHUNK_SIZE - 1, List.replicate 1 0,
      [⟨"/b.bin", DataType.Append, 1, 1000, "application/octet-stream"⟩], 1,
      [⟨0, List.replicate 2000000 0,
        [⟨"/b.bin", DataType.New, 2000000, 1000, "application/octet-stream"⟩],
        false⟩]⟩ := by
  unfold processFile
  rw [show bigE.key = "/b.bin" from rfl,
    show bigE.contentType = "application/octet-stream" from rfl,
    show bigE.timestamp = 1000 from rfl,
    show bigE.content = List.replicate 2000001 0 from rfl, packBig]
  simp only [St.mk.injEq, CHUNK_SIZE, List.length_replicate, List.nil_append,
    List.append_nil, Item.mk.injEq, List.cons.injEq, and_true, true_and]

lemma runBig : runSync [bigE] [] =
    ⟨[⟨0, List.replicate 2000000 0,
        [⟨"/b.bin", DataType.New, 2000000, 1000, "application/octet-stream"⟩],
        false⟩,
      ⟨1, List.replicate 1 0,
        [⟨"/b.bin", DataType.Append, 1, 1000, "application/octet-stream"⟩],
        true⟩], true⟩ := by
  have hstep : syncStep (initSt, ([] : List Metadata)) bigE =
      (processFile bigE initSt, []) := by
    simp only [syncStep, removeKey]
  simp only [runSync, List.foldl_cons, List.foldl_nil, hstep, processFile_bigE]
  simp only [RunResult.mk.injEq, Chunk.mk.injEq, List.cons.injEq,
    List.singleton_append, List.cons_append, List.nil_append, List.append_nil,
    List.map_nil, and_true, true_and]
  decide

lemma run_mixed : runSync [a500] [bMeta] =
    ⟨[⟨0, List.replicate 500 0,
        [⟨"/a.txt", DataType.New, 500, 1000, "text/plain"⟩,
         ⟨"/b.txt", DataType.Delete, 0, 0, ""⟩], true⟩], false⟩ := by
  have hle : ¬ initSt.size < a500.content.length := by
    simp only [a500, initSt, CHUNK_SIZE, List.length_replicate]
    decide
  have hrk : removeKey "/a.txt" [bMeta] = (none, [bMeta]) := by decide
  have hstep : syncStep (initSt, [bMeta]) a500 =
      (processFile a500 initSt, [bMeta]) := by
    simp only [syncStep, a500, hrk]
  simp only [runSync, List.foldl_cons, List.foldl_nil, hstep]
  rw [processFile_of_le _ _ hle]
  simp only [RunResult.mk.injEq, Chunk.mk.injEq, List.cons.injEq, initSt, a500,
    bMeta, List.length_replicate, List.nil_append, List.append_nil,
    List.map_cons, List.map_nil, and_true, true_and]
  decide

/-! ## Run-level consequences -/

lemma foldl_processFile_inv (ks : List String) :
    ∀ (us : List LocalEntry) (st : St), StInv st → streamOK ks st →
      (∀ e ∈ us, e.key ∈ ks) →
      StInv (us.foldl (fun s e => processFile e s) st) ∧
        streamOK ks (us.foldl (fun s e => processFile e s) st) := by
  intro us
  induction us with
  | nil =>
    intro st h1 h2 _
    exact ⟨h1, h2⟩
  | cons e tl ih =>
    intro st h1 h2 h3
    rw [List.foldl_cons]
    exact ih _ (processFile_StInv e st h1)
      (processFile_streamOK ks e st h2 (h3 e (List.mem_cons_self e tl)))
      (fun x hx => h3 x (List.mem_cons_of_mem e hx))

lemma diff_fst_sublist :
    ∀ (L : List LocalEntry) (ex : List Metadata), ∀ e ∈ (diff L ex).1, e ∈ L := by
  intro L
  induction L with
  | nil =>
    intro ex e he
    simp [diff] at he
  | cons x ls ih =>
    intro ex e he
    cases hm : (removeKey x.key ex).1 with
    | none =>
      have hd : diff (x :: ls) ex =
          (x :: (diff ls (removeKey x.key ex).2).1,
            (diff ls (removeKey x.key ex).2).2) := by
        simp only [diff, hm]
      rw [hd] at he
      rcases List.mem_cons.mp he with rfl | he
      · exact List.mem_cons_self _ _
      · exact List.mem_cons_of_mem _ (ih _ e he)
    | some m =>
      by_cases hc : m.timestamp = x.timestamp ∧ m.size = x.content.length
      · have hd : diff (x :: ls) ex = diff ls (removeKey x.key ex).2 := by
          simp only [diff, hm, if_pos hc]
        rw [hd] at he
        exact List.mem_cons_of_mem _ (ih _ e he)
      · have hd : diff (x :: ls) ex =
            (x :: (diff ls (removeKey x.key ex).2).1,
              (diff ls (removeKey x.key ex).2).2) := by
          simp only [diff, hm, if_neg hc]
        rw [hd] at he
        rcases List.mem_cons.mp he with rfl | he
        · exact List.mem_cons_self _ _
        · exact List.mem_cons_of_mem _ (ih _ e he)

lemma runSync_pack_inv (L : List LocalEntry) (R : List Metadata) :
    StInv (packAll (diff L R).1) ∧
      streamOK (L.map LocalEntry.key) (packAll (diff L R).1) := by
  unfold packAll
  exact foldl_processFile_inv (L.map LocalEntry.key) (diff L R).1 initSt
    initSt_StInv (initSt_streamOK _)
    (fun e he => List.mem_map_of_mem LocalEntry.key (diff_fst_sublist L R e he))

lemma runSync_chunks_decomp (L : List LocalEntry) (R : List Metadata) :
    (runSync L R).chunks =
      (packAll (diff L R).1).chunks ++
        [⟨(packAll (diff L R).1).id, (packAll (diff L R).1).blob,
          (packAll (diff L R).1).item ++
            (diff L R).2.map (fun m => ⟨m.name, DataType.Delete, 0, 0, ""⟩),
          true⟩] := by
  rw [runSync_eq]

lemma runSync_commit_eq (L : List LocalEntry) (R : List Metadata) :
    (runSync L R).commit = decide (0 < (packAll (diff L R).1).id) := by
  rw [runSync_eq]

lemma runSync_flatten_items (L : List LocalEntry) (R : List Metadata) :
    ((runSync L R).chunks.map Chunk.item).flatten =
      (packAll (diff L R).1).itemStream ++
        (diff L R).2.map (fun m => ⟨m.name, DataType.Delete, 0, 0, ""⟩) := by
  rw [runSync_chunks_decomp]
  simp only [List.map_append, List.map_cons, List.map_nil, List.flatten_append,
    List.flatten_cons, List.flatten_nil, List.append_nil, St.itemStream,
    List.append_assoc]

lemma nonfinal_count (L : List LocalEntry) (R : List Metadata) :
    ((runSync L R).chunks.filter (fun c => !c.isFinal)).length =
      (packAll (diff L R).1).id := by
  obtain ⟨hinv, -⟩ := runSync_pack_inv L R
  rw [runSync_chunks_decomp, List.filter_append]
  have h1 : (packAll (diff L R).1).chunks.filter (fun c => !c.isFinal) =
      (packAll (diff L R).1).chunks := by
    rw [List.filter_eq_self]
    intro c hc
    rcases hinv.2.2.2 c hc with ⟨hf, -, -⟩
    simp [hf]
  have h2 : List.filter (fun c => !c.isFinal)
      [(⟨(packAll (diff L R).1).id, (packAll (diff L R).1).blob,
        (packAll (diff L R).1).item ++
          (diff L R).2.map (fun m => ⟨m.name, DataType.Delete, 0, 0, ""⟩),
        true⟩ : Chunk)] = [] := rfl
  rw [h1, h2, List.append_nil]
  have h3 := congrArg List.length hinv.2.2.1
  simpa using h3

lemma countP_name_eq_one :
    ∀ (l : List Metadata), (l.map Metadata.name).Nodup →
      ∀ m ∈ l, l.countP (fun x => decide (x.name = m.name)) = 1 := by
  intro l
  induction l with
  | nil =>
    intro _ m hm
    cases hm
  | cons x xs ih =>
    intro h m hm
    rw [List.map_cons, List.nodup_cons] at h
    rcases List.mem_cons.mp hm with rfl | hm
    · rw [List.countP_cons, if_pos (by simp)]
      have h0 : xs.countP (fun y => decide (y.name = m.name)) = 0 := by
        rw [List.countP_eq_zero]
        intro y hy
        simp only [decide_eq_true_eq]
        intro hyname
        exact h.1 (hyname ▸ List.mem_map_of_mem Metadata.name hy)
      rw [h0]
    · rw [List.countP_cons, if_neg ?_]
      · rw [ih h.2 m hm]
      · simp only [decide_eq_true_eq]
        intro hx
        exact h.1 (hx ▸ List.mem_map_of_mem Metadata.name hm)

/-! ## Claim theorems -/

/-- C3: for every local inventory `L` (distinct keys) and remote manifest
`R` (distinct names), the diff uploads exactly the local entries with no
remote entry of equal key, timestamp and size, and deletes exactly the
remote entries whose key is matched by no local entry: a local entry is
skipped iff such a matching remote entry exists, every other local entry
is uploaded, and exactly the unmatched remote entries end up in the
delete set. -/
theorem diff_correct (L : List LocalEntry) (R : List Metadata)
    (hl : (L.map LocalEntry.key).Nodup) (hr : (R.map Metadata.name).Nodup) :
    diff L R = (uploadSet L R, deleteSet L R) ∧
    (∀ e ∈ L, (e ∈ (diff L R).1 ↔ ¬ matchesRemote R e)) ∧
    (∀ m ∈ R, (m ∈ (diff L R).2 ↔ m.name ∉ L.map LocalEntry.key)) := by
  have hspec := diff_spec L R hl hr
  refine ⟨hspec, ?_, ?_⟩
  · intro e he
    rw [hspec]
    unfold uploadSet
    rw [List.mem_filter]
    constructor
    · rintro ⟨-, hdec⟩
      simpa using hdec
    · intro hne
      exact ⟨he, by simpa using hne⟩
  · intro m hm
    rw [hspec]
    unfold deleteSet
    rw [List.mem_filter]
    constructor
    · rintro ⟨-, hdec⟩
      simp only [Bool.not_eq_eq_eq_not, Bool.not_true, decide_eq_false_iff_not] at hdec
      intro hmem
      rcases List.mem_map.mp hmem with ⟨e, he, hk⟩
      exact hdec ⟨e, he, hk⟩
    · intro hnot
      refine ⟨hm, ?_⟩
      simp only [Bool.not_eq_eq_eq_not, Bool.not_true, decide_eq_false_iff_not]
      rintro ⟨e, he, hk⟩
      exact hnot (hk ▸ List.mem_map_of_mem LocalEntry.key he)

/-- C3 witness: the theorem applied at a concrete two-file inventory and a
two-entry manifest, where `/a.txt` matches exactly, `/c.txt` is local
only, and `/b.txt` is remote only. -/
theorem diff_correct_witness :
    diff [⟨"/a.txt", [7], 10, "t"⟩, ⟨"/c.txt", [1, 2], 3, "t"⟩]
        [⟨"/a.txt", 1, 10⟩, ⟨"/b.txt", 5, 6⟩] =
      (uploadSet [⟨"/a.txt", [7], 10, "t"⟩, ⟨"/c.txt", [1, 2], 3, "t"⟩]
          [⟨"/a.txt", 1, 10⟩, ⟨"/b.txt", 5, 6⟩],
        deleteSet [⟨"/a.txt", [7], 10, "t"⟩, ⟨"/c.txt", [1, 2], 3, "t"⟩]
          [⟨"/a.txt", 1, 10⟩, ⟨"/b.txt", 5, 6⟩]) :=
  (diff_correct _ _ (by decide) (by decide)).1

/-- C4: in every run, every recorded non-final chunk has blob length
exactly `CHUNK_SIZE` (2,000,000), and the final chunk has blob length at
most `CHUNK_SIZE` (possibly 0). -/
theorem chunk_capacity (L : List LocalEntry) (R : List Metadata) :
    ∀ c ∈ (runSync L R).chunks,
      (c.isFinal = false → c.blob.length = CHUNK_SIZE) ∧
      (c.isFinal = true → c.blob.length ≤ CHUNK_SIZE) := by
  intro c hc
  obtain ⟨hinv, -⟩ := runSync_pack_inv L R
  rw [runSync_chunks_decomp] at hc
  rcases List.mem_append.mp hc with hc | hc
  · rcases hinv.2.2.2 c hc with ⟨hf, hlen, -⟩
    refine ⟨fun _ => hlen, fun hfin => ?_⟩
    rw [hf] at hfin
    cases hfin
  · rw [List.mem_singleton] at hc
    subst hc
    refine ⟨fun hfin => absurd hfin (by simp), fun _ => ?_⟩
    show (packAll (diff L R).1).blob.length ≤ CHUNK_SIZE
    have h1 := hinv.1
    omega

/-- C4 witness: the theorem applied to the single (final) chunk of the
500-byte-file run, whose blob length 500 is at most `CHUNK_SIZE`. -/
theorem chunk_capacity_witness :
    (⟨0, List.replicate 500 0,
      [⟨"/a.txt", DataType.New, 500, 1000, "text/plain"⟩], true⟩ : Chunk) ∈
        (runSync [a500] []).chunks ∧
      (List.replicate (500 : Nat) (0 : Nat)).length ≤ CHUNK_SIZE := by
  have hmem : (⟨0, List.replicate 500 0,
      [⟨"/a.txt", DataType.New, 500, 1000, "text/plain"⟩], true⟩ : Chunk) ∈
        (runSync [a500] []).chunks := by
    rw [run500]
    exact List.mem_singleton.mpr rfl
  exact ⟨hmem, (chunk_capacity [a500] [] _ hmem).2 rfl⟩

/-- C6: packing one file appends items whose `len` fields sum to exactly
the file's byte length: the total `len` over the whole item stream grows
by `e.content.length`, however many chunks the file spans. -/
theorem item_len_conservation (e : LocalEntry) (st : St) :
    itemLenSum (processFile e st).itemStream =
      itemLenSum st.itemStream + e.content.length := by
  rw [processFile_itemStream]
  unfold itemLenSum
  rw [List.map_append, List.sum_append]
  have h := fileItems_lenSum e.key e.contentType e.timestamp
    e.content.length st.size DataType.New
  unfold itemLenSum at h
  rw [h]

/-- C7: the items a file contributes are exactly `fileItems …`, appended
to the stream; among them exactly one carries `dataType = New`, it is the
first one, every later one carries `Append`, and all carry the file's
key. -/
theorem single_new_first (e : LocalEntry) (st : St) :
    (processFile e st).itemStream =
      st.itemStream ++ fileItems e.key e.contentType e.timestamp
        e.content.length st.size DataType.New ∧
    (fileItems e.key e.contentType e.timestamp e.content.length st.size
        DataType.New).countP (fun i => decide (i.dataType = DataType.New)) = 1 ∧
    (fileItems e.key e.contentType e.timestamp e.content.length st.size
        DataType.New).head?.map Item.dataType = some DataType.New ∧
    (∀ i ∈ (fileItems e.key e.contentType e.timestamp e.content.length st.size
        DataType.New).tail, i.dataType = DataType.Append) ∧
    (∀ i ∈ fileItems e.key e.contentType e.timestamp e.content.length st.size
        DataType.New, i.key = e.key) :=
  ⟨processFile_itemStream e st,
    fileItems_countP_new e.key e.contentType e.timestamp e.content.length st.size,
    fileItems_head e.key e.contentType e.timestamp e.content.length st.size
      DataType.New,
    fileItems_tail_append e.key e.contentType e.timestamp e.content.length
      st.size DataType.New,
    fun i hi => (fileItems_mem e.key e.contentType e.timestamp
      e.content.length st.size DataType.New i hi).1⟩

/-- C7 witness: for the file one byte over capacity the theorem gives the
`Append` type of the second item, the only member of the tail. -/
theorem single_new_first_witness :
    Item.dataType ⟨"/b.bin", DataType.Append, 1, 1000,
      "application/octet-stream"⟩ = DataType.Append := by
  have htail : (⟨"/b.bin", DataType.Append, 1, 1000,
      "application/octet-stream"⟩ : Item) ∈
      (fileItems bigE.key bigE.contentType bigE.timestamp bigE.content.length
        initSt.size DataType.New).tail := by
    have h1 : bigE.content.length = 2000001 := by
      rw [show bigE.content = List.replicate 2000001 0 from rfl,
        List.length_replicate]
    rw [h1, show bigE.key = "/b.bin" from rfl,
      show bigE.contentType = "application/octet-stream" from rfl,
      show bigE.timestamp = 1000 from rfl,
      fileItems_of_lt _ _ _ _ _ _ (by decide),
      fileItems_of_le _ _ _ _ _ _ (by decide)]
    simp [show (2000001 : Nat) - initSt.size = 1 from by decide]
  exact (single_new_first bigE initSt).2.2.2.1 _ htail

/-- C1 counterexample: a run uploading a single 500-byte new file produces
one chunk (the final one) but `commit` is NOT called, because `main.rs`
guards the commit with `id > 0` and `id` counts only non-final chunks. -/
theorem commit_skipped_single_small_file :
    (runSync [a500] []).chunks.length = 1 ∧
      (runSync [a500] []).commit = false :=
  ⟨by rw [run500]; rfl, by rw [run500]⟩

/-- C1 amended: exactly one commit call is issued iff at least one
NON-final chunk was produced (`id > 0` in the source); a run uploading a
single 500-byte new file produces one chunk and zero commit calls. -/
theorem commit_iff_nonfinal_chunk :
    (∀ (L : List LocalEntry) (R : List Metadata),
      0 < ((runSync L R).chunks.filter (fun c => !c.isFinal)).length →
        (runSync L R).commit = true) ∧
    (runSync [a500] []).chunks.length = 1 ∧
      (runSync [a500] []).commit = false := by
  refine ⟨?_, by rw [run500]; rfl, by rw [run500]⟩
  intro L R h
  rw [nonfinal_count] at h
  rw [runSync_commit_eq]
  exact decide_eq_true h

/-- C1 witness: the run with one 2,000,001-byte file produces a non-final
chunk, and the amended theorem yields the commit. -/
theorem commit_iff_nonfinal_chunk_witness :
    0 < ((runSync [bigE] []).chunks.filter (fun c => !c.isFinal)).length ∧
      (runSync [bigE] []).commit = true := by
  have h : 0 < ((runSync [bigE] []).chunks.filter
      (fun c => !c.isFinal)).length := by
    rw [runBig]
    decide
  exact ⟨h, commit_iff_nonfinal_chunk.1 [bigE] [] h⟩

/-- C2 counterexample: in the run with no local files and no remote
entries — zero files needing upload and zero deletions — one (empty,
final) chunk IS uploaded, because line 103 of `main.rs` pushes the final
`upload_blob` unconditionally; the claim says no chunk at all is
uploaded. -/
theorem empty_run_uploads_final_chunk :
    (runSync [] []).chunks.length = 1 ∧ (runSync [] []).commit = false :=
  ⟨by rw [run_empty]; rfl, by rw [run_empty]⟩

/-- C2 amended: a run with zero files needing upload and zero deletions
uploads exactly one chunk — the empty final chunk (sequence id 0, empty
blob, no items) — and performs no commit; hence a second unchanged sync
run uploads that single empty final chunk and commits zero times. -/
theorem no_change_run_single_empty_chunk (L : List LocalEntry)
    (R : List Metadata) (h : diff L R = ([], [])) :
    runSync L R = ⟨[⟨0, [], [], true⟩], false⟩ := by
  rw [runSync_eq, h]
  rfl

/-- C2 witness: a one-file inventory exactly matching the one-entry
manifest diffs to no uploads and no deletions, and the run uploads just
the empty final chunk without committing. -/
theorem no_change_run_single_empty_chunk_witness :
    diff [⟨"/a", [1], 5, "t"⟩] [⟨"/a", 1, 5⟩] = ([], []) ∧
      runSync [⟨"/a", [1], 5, "t"⟩] [⟨"/a", 1, 5⟩] =
        ⟨[⟨0, [], [], true⟩], false⟩ :=
  ⟨by decide, no_change_run_single_empty_chunk _ _ (by decide)⟩

/-- C5 counterexample: for one new local file of exactly 2,000,000 bytes
the run emits ONE chunk, which is final — not a non-final chunk 0
followed by an empty final chunk 1 — because the loop condition in
`main.rs` is the strict `size < len`. -/
theorem exact_capacity_two_chunk_cex :
    (runSync [a2M] []).chunks.length = 1 ∧
      (runSync [a2M] []).chunks.map Chunk.isFinal = [true] :=
  ⟨by rw [run2M]; rfl, by rw [run2M]; rfl⟩

/-- C5 amended: a run whose only change is one new 2,000,000-byte file
emits a single final chunk 0 with blob length 2,000,000 carrying one
`Item{New, len = 2,000,000}` (and, `id` being 0, no commit); the packing
loop runs only while the file's remaining unread length is STRICTLY
greater than the remaining capacity — when the remaining length is at
most the capacity the loop does not run. -/
theorem exact_capacity_single_final_chunk :
    (runSync [a2M] []).chunks =
      [⟨0, List.replicate 2000000 0,
        [⟨"/a.bin", DataType.New, 2000000, 1000, "application/octet-stream"⟩],
        true⟩] ∧
    (runSync [a2M] []).commit = false ∧
    (∀ (k c : String) (t : Nat) (content : List Nat) (dt : DataType) (st : St),
      content.length ≤ st.size →
        packLoop k c t content dt st = (st, dt, content)) := by
  refine ⟨by rw [run2M], by rw [run2M], ?_⟩
  intro k c t content dt st h
  exact packLoop_of_le k c t content dt st (by omega)

/-- C5 witness: the no-loop case of the amended theorem at a concrete
two-byte file and full capacity. -/
theorem exact_capacity_single_final_chunk_witness :
    packLoop "/w" "t" 7 [1, 2] DataType.New initSt =
      (initSt, DataType.New, [1, 2]) :=
  exact_capacity_single_final_chunk.2.2 "/w" "t" 7 [1, 2] DataType.New initSt
    (by decide)

/-- C8: under distinct local keys and distinct remote names, every
remote-only manifest entry yields exactly one emitted item with its key —
the `Delete` item with `len = 0`, `timestamp = 0`, `contentType = ""` —
and no item of any other data type; every `Delete` item of the run has
those zero fields; and every chunk's blob length equals the total `len`
of its items, so `Delete` items contribute no bytes to any blob. -/
theorem delete_completeness (L : List LocalEntry) (R : List Metadata)
    (hl : (L.map LocalEntry.key).Nodup) (hr : (R.map Metadata.name).Nodup) :
    (∀ m ∈ R, m.name ∉ L.map LocalEntry.key →
      ((((runSync L R).chunks.map Chunk.item).flatten.countP
          (fun i => decide (i.key = m.name)) = 1) ∧
        (⟨m.name, DataType.Delete, 0, 0, ""⟩ : Item) ∈
          ((runSync L R).chunks.map Chunk.item).flatten)) ∧
    (∀ i ∈ ((runSync L R).chunks.map Chunk.item).flatten,
      i.dataType = DataType.Delete →
        i.len = 0 ∧ i.timestamp = 0 ∧ i.contentType = "") ∧
    (∀ c ∈ (runSync L R).chunks, c.blob.length = itemLenSum c.item) := by
  obtain ⟨hinv, hok⟩ := runSync_pack_inv L R
  have hflat := runSync_flatten_items L R
  have hdels : (diff L R).2 = deleteSet L R :=
    congrArg Prod.snd (diff_spec L R hl hr)
  refine ⟨?_, ?_, ?_⟩
  · intro m hm hnot
    constructor
    · rw [hflat, List.countP_append]
      have hzero : (packAll (diff L R).1).itemStream.countP
          (fun i => decide (i.key = m.name)) = 0 := by
        rw [List.countP_eq_zero]
        intro i hi
        simp only [decide_eq_true_eq]
        intro hik
        exact hnot (hik ▸ (hok i hi).2)
      have hone : ((diff L R).2.map
          (fun m => (⟨m.name, DataType.Delete, 0, 0, ""⟩ : Item))).countP
          (fun i => decide (i.key = m.name)) = 1 := by
        rw [List.countP_map]
        have heq : ((fun i => decide (i.key = m.name)) ∘
            (fun x : Metadata => (⟨x.name, DataType.Delete, 0, 0, ""⟩ : Item))) =
            fun x : Metadata => decide (x.name = m.name) := rfl
        rw [heq, hdels]
        have hnd : ((deleteSet L R).map Metadata.name).Nodup := by
          unfold deleteSet
          exact nodup_names_filter _ R hr
        have hmem : m ∈ deleteSet L R := by
          unfold deleteSet
          rw [List.mem_filter]
          refine ⟨hm, ?_⟩
          simp only [Bool.not_eq_eq_eq_not, Bool.not_true,
            decide_eq_false_iff_not]
          rintro ⟨e, he, hk⟩
          exact hnot (hk ▸ List.mem_map_of_mem LocalEntry.key he)
        exact countP_name_eq_one (deleteSet L R) hnd m hmem
      rw [hzero, hone]
    · rw [hflat]
      refine List.mem_append.mpr (Or.inr ?_)
      have hmem : m ∈ (diff L R).2 := by
        rw [hdels]
        unfold deleteSet
        rw [List.mem_filter]
        refine ⟨hm, ?_⟩
        simp only [Bool.not_eq_eq_eq_not, Bool.not_true,
          decide_eq_false_iff_not]
        rintro ⟨e, he, hk⟩
        exact hnot (hk ▸ List.mem_map_of_mem LocalEntry.key he)
      exact List.mem_map_of_mem _ hmem
  · intro i hi hdel
    rw [hflat] at hi
    rcases List.mem_append.mp hi with hi | hi
    · exact absurd hdel (hok i hi).1
    · rcases List.mem_map.mp hi with ⟨x, -, rfl⟩
      exact ⟨rfl, rfl, rfl⟩
  · intro c hc
    rw [runSync_chunks_decomp] at hc
    rcases List.mem_append.mp hc with hc | hc
    · exact (hinv.2.2.2 c hc).2.2
    · rw [List.mem_singleton] at hc
      subst hc
      have hdz : itemLenSum ((diff L R).2.map
          (fun m => (⟨m.name, DataType.Delete, 0, 0, ""⟩ : Item))) = 0 := by
        unfold itemLenSum
        apply List.sum_eq_zero
        intro x hx
        rcases List.mem_map.mp hx with ⟨i, hi, rfl⟩
        rcases List.mem_map.mp hi with ⟨m, -, rfl⟩
        rfl
      show (packAll (diff L R).1).blob.length = itemLenSum _
      unfold itemLenSum
      rw [List.map_append, List.sum_append]
      unfold itemLenSum at hdz
      rw [hdz]
      have h2 := hinv.2.1
      unfold itemLenSum at h2
      omega

/-- C8 witness: in the run `[a500]` against `[bMeta]`, the remote-only
key `/b.txt` yields exactly one item with that key, the zero-field
`Delete` item. -/
theorem delete_completeness_witness :
    (((runSync [a500] [bMeta]).chunks.map Chunk.item).flatten.countP
        (fun i => decide (i.key = bMeta.name)) = 1) ∧
      (⟨bMeta.name, DataType.Delete, 0, 0, ""⟩ : Item) ∈
        ((runSync [a500] [bMeta]).chunks.map Chunk.item).flatten :=
  (delete_completeness [a500] [bMeta] (by decide) (by decide)).1 bMeta
    (by decide) (by decide)

/-- C9: if any chunk upload of a run fails, the run fails and no commit is
attempted; conversely a commit happens only in a run in which every chunk
upload succeeded. -/
theorem upload_failure_no_commit (L : List LocalEntry) (R : List Metadata)
    (uploadOk : Nat → Bool) :
    ((∃ c ∈ (runSync L R).chunks, uploadOk c.id = false) →
      runWithUploads L R uploadOk = ⟨true, false⟩) ∧
    ((runWithUploads L R uploadOk).committed = true →
      (∀ c ∈ (runSync L R).chunks, uploadOk c.id = true) ∧
        (runWithUploads L R uploadOk).failed = false) := by
  unfold runWithUploads
  by_cases hall : (runSync L R).chunks.all (fun c => uploadOk c.id) = true
  · rw [if_pos hall]
    constructor
    · rintro ⟨c, hc, hfail⟩
      have := List.all_eq_true.mp hall c hc
      rw [hfail] at this
      cases this
    · intro _
      exact ⟨fun c hc => List.all_eq_true.mp hall c hc, rfl⟩
  · rw [if_neg hall]
    refine ⟨fun _ => rfl, fun hcom => ?_⟩
    exact absurd hcom (by simp)

/-- C9 witness: with an oracle failing every upload, the 500-byte-file run
fails and does not commit. -/
theorem upload_failure_no_commit_witness :
    (∃ c ∈ (runSync [a500] []).chunks, (fun _ : Nat => false) c.id = false) ∧
      runWithUploads [a500] [] (fun _ => false) = ⟨true, false⟩ := by
  have hex : ∃ c ∈ (runSync [a500] []).chunks,
      (fun _ : Nat => false) c.id = false := by
    rw [run500]
    exact ⟨_, List.mem_singleton.mpr rfl, rfl⟩
  exact ⟨hex, (upload_failure_no_commit [a500] [] (fun _ => false)).1 hex⟩

/-- C10: every run uploads exactly one chunk with `isFinal = true` — also
a run with zero files needing upload and zero deletions — that final
chunk's sequence id equals the number of non-final chunks of the run (so
it is the largest id), every non-final chunk's id is strictly below it,
and every `Delete` item of the run is among the final chunk's items. -/
theorem unique_final_chunk (L : List LocalEntry) (R : List Metadata) :
    ((runSync L R).chunks.filter (fun c => c.isFinal)).length = 1 ∧
    ∀ c ∈ (runSync L R).chunks,
      (c.isFinal = true →
        c.id = ((runSync L R).chunks.filter (fun d => !d.isFinal)).length ∧
        ∀ i ∈ ((runSync L R).chunks.map Chunk.item).flatten,
          i.dataType = DataType.Delete → i ∈ c.item) ∧
      (c.isFinal = false →
        c.id < ((runSync L R).chunks.filter (fun d => !d.isFinal)).length) := by
  obtain ⟨hinv, hok⟩ := runSync_pack_inv L R
  have hcnt := nonfinal_count L R
  constructor
  · rw [runSync_chunks_decomp, List.filter_append]
    have h1 : (packAll (diff L R).1).chunks.filter (fun c => c.isFinal) = [] := by
      rw [List.filter_eq_nil_iff]
      intro c hc
      rcases hinv.2.2.2 c hc with ⟨hf, -, -⟩
      simp [hf]
    rw [h1]
    rfl
  · intro c hc
    rw [runSync_chunks_decomp] at hc
    rcases List.mem_append.mp hc with hc | hc
    · rcases hinv.2.2.2 c hc with ⟨hf, -, -⟩
      refine ⟨fun hfin => ?_, fun _ => ?_⟩
      · rw [hf] at hfin
        cases hfin
      · rw [hcnt]
        have hmem : c.id ∈ (packAll (diff L R).1).chunks.map Chunk.id :=
          List.mem_map_of_mem Chunk.id hc
        rw [hinv.2.2.1] at hmem
        exact List.mem_range.mp hmem
    · rw [List.mem_singleton] at hc
      subst hc
      refine ⟨fun _ => ⟨by rw [hcnt], ?_⟩, fun hfin => absurd hfin (by simp)⟩
      intro i hi hdel
      rw [runSync_flatten_items] at hi
      rcases List.mem_append.mp hi with hi | hi
      · exact absurd hdel (hok i hi).1
      · exact List.mem_append.mpr (Or.inr hi)

/-- C10 witness: the deletion-only run `[] / [bMeta]` has its single final
chunk at id 0 (zero non-final chunks) and that chunk carries the run's
`Delete` item. -/
theorem unique_final_chunk_witness :
    (⟨0, [], [⟨"/b.txt", DataType.Delete, 0, 0, ""⟩], true⟩ : Chunk).id =
        ((runSync [] [bMeta]).chunks.filter (fun d => !d.isFinal)).length ∧
      (⟨"/b.txt", DataType.Delete, 0, 0, ""⟩ : Item) ∈
        (⟨0, [], [⟨"/b.txt", DataType.Delete, 0, 0, ""⟩], true⟩ : Chunk).item := by
  have hmem : (⟨0, [], [⟨"/b.txt", DataType.Delete, 0, 0, ""⟩], true⟩ : Chunk) ∈
      (runSync [] [bMeta]).chunks := by
    rw [run_delete_only]
    exact List.mem_singleton.mpr rfl
  have h := ((unique_final_chunk [] [bMeta]).2 _ hmem).1 rfl
  refine ⟨h.1, h.2 _ ?_ rfl⟩
  rw [run_delete_only]
  simp
